import Mathlib

/-!
Shallow embedding of the dice-notation roller (src/rcmd.rs).

Rust strings are modelled as `List Char`; the fallible `FromStr` impl is
modelled with `Except`; machine integers (`u32`) are `Nat` with explicit
range checks (`< 2 ^ 32`) where the source's integer parsing can overflow,
and wrapping addition (`% 2 ^ 32`) where the source's `u32` sum can wrap.
The injected `FnMut(u32) -> u32` roll function is modelled as an explicit
state-passing function `σ → Nat → Nat × σ`.
-/

namespace Dice

/-- Model of Rust `str::split(c)` on a character pattern: every occurrence
of `c` separates pieces, empty pieces are kept, and the empty string yields
one empty piece. -/
def splitOn (c : Char) : List Char → List (List Char)
  | [] => [[]]
  | x :: xs =>
    if x = c then
      [] :: splitOn c xs
    else
      match splitOn c xs with
      | [] => [[x]]
      | y :: ys => (x :: y) :: ys

/-- Sign handling of Rust integer `FromStr` for unsigned types: a single
leading plus sign is stripped, anything else is left in place. -/
def stripPlus (l : List Char) : List Char :=
  match l with
  | [] => []
  | x :: xs => if x = '+' then xs else x :: xs

/-- The numeric value of a run of decimal digit characters. -/
def decimalVal (t : List Char) : Nat :=
  t.foldl (fun a c => a * 10 + (c.toNat - 48)) 0

/-- Model of Rust `str::parse::<u32>()`: an optional leading plus sign,
then a nonempty run of ASCII digits, value required to fit in a `u32`. -/
def parseU32 (l : List Char) : Option Nat :=
  let t := stripPlus l
  if t.isEmpty then none
  else if t.all Char.isDigit then
    if decimalVal t < 2 ^ 32 then some (decimalVal t) else none
  else none

/-- Model of `struct RollCmd { count: u32, sides: u32 }`. -/
structure RollCmd where
  count : Nat
  sides : Nat
deriving DecidableEq, Repr

/-- `RollCmd::new(c, s)`. -/
def RollCmd.new (c s : Nat) : RollCmd :=
  { count := c, sides := s }

/-- The error message built by `from_str`: `format!("Invalid RollCmd: {}", s)`
as a character list. -/
def invalidMsg (s : List Char) : List Char :=
  "Invalid RollCmd: ".data ++ s

/-- Model of `RollCmd::from_str`: split on `'d'`, keep the pieces that parse
as `u32`, then branch on how many survived (the source matches on
`split.len()` and indexes, which is the same as these list patterns). -/
def RollCmd.fromStr (s : List Char) : Except (List Char) RollCmd :=
  let split := (splitOn 'd' s).filterMap parseU32
  match split with
  | [count, sides] => .ok (RollCmd.new count sides)
  | [sides] => .ok (RollCmd.new 1 sides)
  | _ => .error (invalidMsg s)

/-- Model of `struct RollResult(Vec<u32>)`; `values` is the underlying
vector (`RollResult::values` returns it as a slice). -/
structure RollResult where
  values : List Nat
deriving DecidableEq, Repr

/-- The iteration `(0..count).map(|_| f(sides))` of `RollCmd::result`, with
the `FnMut` closure's mutable state threaded explicitly: apply `f` to the
current state and `sides`, `n` times, collecting outputs in call order. -/
def rollIter {σ : Type} (f : σ → Nat → Nat × σ) (sides : Nat) :
    Nat → σ → List Nat × σ
  | 0, st => ([], st)
  | n + 1, st =>
    let p := f st sides
    let q := rollIter f sides n p.2
    (p.1 :: q.1, q.2)

/-- Model of `RollCmd::result`: call the injected function `count` times,
each time with `sides`, and collect the returned values into a
`RollResult`; the final closure state is returned alongside. -/
def RollCmd.result {σ : Type} (cmd : RollCmd) (f : σ → Nat → Nat × σ)
    (st : σ) : RollResult × σ :=
  let p := rollIter f cmd.sides cmd.count st
  ({ values := p.1 }, p.2)

/-- `RollCmd::result` with a stateless (pure) injected function, as in the
doc example `cmd.result(|max| max)`. -/
def RollCmd.resultP (cmd : RollCmd) (f : Nat → Nat) : RollResult :=
  (cmd.result (fun (u : Unit) m => (f m, u)) ()).1

/-- Model of `RollResult::total`: `self.0.iter().fold(0, |a, b| a + b)` on
`u32`, so each addition wraps modulo `2 ^ 32`. -/
def RollResult.total (r : RollResult) : Nat :=
  r.values.foldl (fun a b => (a + b) % 2 ^ 32) 0

/-- Model of the `Display` impl for `RollResult`: render each value in
decimal, join with a comma and space, then append the total in the source's
format string. -/
def RollResult.toDisplayString (r : RollResult) : String :=
  String.intercalate ", " (r.values.map Nat.repr) ++ " (Total: "
    ++ Nat.repr r.total ++ ")"

/-- Instrumentation wrapper for an injected roll function: alongside the
wrapped function's own state, record the argument of every call. -/
def instrument {σ : Type} (f : σ → Nat → Nat × σ) :
    σ × List Nat → Nat → Nat × (σ × List Nat) :=
  fun p m => ((f p.1 m).1, ((f p.1 m).2, p.2 ++ [m]))

/-! ### Supporting lemmas about splitting -/

theorem splitOn_ne_nil (c : Char) : ∀ l : List Char, splitOn c l ≠ []
  | [] => by simp [splitOn]
  | x :: xs => by
    simp only [splitOn]
    split
    · simp
    · split <;> simp

theorem splitOn_cons_self (c : Char) (l : List Char) :
    splitOn c (c :: l) = [] :: splitOn c l := by
  simp [splitOn]

theorem splitOn_cons_of_ne (c x : Char) (xs y : List Char)
    (ys : List (List Char)) (hx : x ≠ c) (hs : splitOn c xs = y :: ys) :
    splitOn c (x :: xs) = (x :: y) :: ys := by
  simp only [splitOn, if_neg hx, hs]

theorem splitOn_no_delim (c : Char) :
    ∀ l : List Char, c ∉ l → splitOn c l = [l]
  | [], _ => rfl
  | x :: xs, h => by
    have hx : x ≠ c := fun he => h (he ▸ List.mem_cons_self x xs)
    have hxs : c ∉ xs := fun hm => h (List.mem_cons_of_mem x hm)
    exact splitOn_cons_of_ne c x xs xs [] hx (splitOn_no_delim c xs hxs)

theorem splitOn_append_of_no_delim (c : Char) :
    ∀ (a l : List Char) (y : List Char) (ys : List (List Char)),
      c ∉ a → splitOn c l = y :: ys → splitOn c (a ++ l) = (a ++ y) :: ys
  | [], l, y, ys, _, hs => by simpa using hs
  | x :: a, l, y, ys, h, hs => by
    have hx : x ≠ c := fun he => h (he ▸ List.mem_cons_self x a)
    have ha : c ∉ a := fun hm => h (List.mem_cons_of_mem x hm)
    have ih := splitOn_append_of_no_delim c a l y ys ha hs
    simpa using splitOn_cons_of_ne c x (a ++ l) (a ++ y) ys hx ih

/-! ### Supporting lemmas about integer parsing -/

theorem mem_stripPlus (l : List Char) (c : Char) (hc : c ≠ '+')
    (h : c ∈ l) : c ∈ stripPlus l := by
  match l with
  | [] => cases h
  | x :: xs =>
    simp only [stripPlus]
    split
    · rename_i hx
      rcases List.mem_cons.mp h with h1 | h2
      · exact absurd (h1.trans hx) hc
      · exact h2
    · exact h

theorem parseU32_some_shape (l : List Char) (n : Nat)
    (h : parseU32 l = some n) :
    stripPlus l ≠ [] ∧ (stripPlus l).all Char.isDigit = true ∧
      n = decimalVal (stripPlus l) ∧ decimalVal (stripPlus l) < 2 ^ 32 := by
  simp only [parseU32] at h
  split at h
  · exact absurd h (by simp)
  · split at h
    · split at h
      · rename_i he hd hlt
        refine ⟨by simpa [List.isEmpty_iff] using he, hd, ?_, hlt⟩
        exact (Option.some.inj h).symm
      · exact absurd h (by simp)
    · exact absurd h (by simp)

theorem parseU32_not_mem_d (l : List Char) (n : Nat)
    (h : parseU32 l = some n) : 'd' ∉ l := by
  intro hm
  have hsp := mem_stripPlus l 'd' (by decide) hm
  have hall := (parseU32_some_shape l n h).2.1
  have := List.all_eq_true.mp hall 'd' hsp
  simp at this

theorem splitOn_d_sandwich (a b : List Char) (na nb : Nat)
    (ha : parseU32 a = some na) (hb : parseU32 b = some nb) :
    splitOn 'd' (a ++ 'd' :: b) = [a, b] := by
  have hnb : 'd' ∉ b := parseU32_not_mem_d b nb hb
  have hna : 'd' ∉ a := parseU32_not_mem_d a na ha
  have h1 : splitOn 'd' ('d' :: b) = [] :: [b] := by
    rw [splitOn_cons_self, splitOn_no_delim 'd' b hnb]
  have h2 := splitOn_append_of_no_delim 'd' a ('d' :: b) [] [b] hna h1
  simpa using h2

/-! ### Supporting lemmas about roll execution -/

theorem rollIter_length {σ : Type} (f : σ → Nat → Nat × σ) (s : Nat) :
    ∀ (n : Nat) (st : σ), (rollIter f s n st).1.length = n
  | 0, _ => rfl
  | n + 1, st => by
    simp only [rollIter, List.length_cons]
    rw [rollIter_length f s n]

theorem rollIter_instrument {σ : Type} (f : σ → Nat → Nat × σ) (s : Nat) :
    ∀ (n : Nat) (st : σ) (acc : List Nat),
      (rollIter (instrument f) s n (st, acc)).1 = (rollIter f s n st).1 ∧
        (rollIter (instrument f) s n (st, acc)).2.2 =
          acc ++ List.replicate n s
  | 0, st, acc => by simp [rollIter]
  | n + 1, st, acc => by
    have ih := rollIter_instrument f s n (f st s).2 (acc ++ [s])
    simp only [rollIter, instrument]
    refine ⟨by rw [ih.1], ?_⟩
    rw [ih.2, List.append_assoc, List.replicate_succ]
    simp

theorem rollIter_mem {σ : Type} (f : σ → Nat → Nat × σ) (s : Nat) :
    ∀ (n : Nat) (st : σ) (v : Nat), v ∈ (rollIter f s n st).1 →
      ∃ st' : σ, v = (f st' s).1
  | 0, _, _, h => by simp [rollIter] at h
  | n + 1, st, v, h => by
    simp only [rollIter, List.mem_cons] at h
    rcases h with h | h
    · exact ⟨st, h⟩
    · exact rollIter_mem f s n (f st s).2 v h

/-! ### Supporting lemmas about totals and display -/

theorem foldl_wrap_add : ∀ (l : List Nat) (a : Nat),
    l.foldl (fun x y => (x + y) % 2 ^ 32) (a % 2 ^ 32) = (a + l.sum) % 2 ^ 32
  | [], a => by simp
  | b :: l, a => by
    have h : (a % 2 ^ 32 + b) % 2 ^ 32 = (a + b) % 2 ^ 32 :=
      Nat.mod_add_mod a (2 ^ 32) b
    calc (b :: l).foldl (fun x y => (x + y) % 2 ^ 32) (a % 2 ^ 32)
        = l.foldl (fun x y => (x + y) % 2 ^ 32) ((a + b) % 2 ^ 32) := by
          simp [List.foldl_cons, h]
      _ = (a + b + l.sum) % 2 ^ 32 := foldl_wrap_add l (a + b)
      _ = (a + (b :: l).sum) % 2 ^ 32 := by
          simp [List.sum_cons]
          ring_nf

theorem string_append_assoc (a b c : String) :
    a ++ b ++ c = a ++ (b ++ c) := by
  rcases a with ⟨da⟩
  rcases b with ⟨db⟩
  rcases c with ⟨dc⟩
  show String.mk (da ++ db ++ dc) = String.mk (da ++ (db ++ dc))
  rw [List.append_assoc]

/-! ### Claim theorems -/

/-- C1: for every token of the form c-then-d-then-s whose two pieces parse
as `u32` integers, `from_str` succeeds with the first piece as `count` and
the second as `sides`; in general, whenever exactly two substrings of the
split on `d` survive integer parsing, the first becomes `count` and the
second `sides`. -/
theorem C1_two_survivors :
    (∀ (a b : List Char) (c s : Nat), parseU32 a = some c →
      parseU32 b = some s →
      RollCmd.fromStr (a ++ 'd' :: b) = .ok (RollCmd.new c s)) ∧
    (∀ (t : List Char) (c s : Nat),
      (splitOn 'd' t).filterMap parseU32 = [c, s] →
      RollCmd.fromStr t = .ok (RollCmd.new c s)) := by
  constructor
  · intro a b c s ha hb
    have hsp := splitOn_d_sandwich a b c s ha hb
    simp only [RollCmd.fromStr, hsp, List.filterMap_cons, ha, hb,
      List.filterMap_nil]
  · intro t c s h
    simp only [RollCmd.fromStr, h]

/-- C1 witness: the theorem applied at the concrete token 2d6. -/
theorem C1_two_survivors_witness :
    RollCmd.fromStr (['2'] ++ 'd' :: ['6']) = .ok (RollCmd.new 2 6) :=
  C1_two_survivors.1 ['2'] ['6'] 2 6 (by decide) (by decide)

/-- C2: whenever exactly one substring survives integer parsing after the
split on `d`, parsing succeeds with `count = 1` and that integer as
`sides`; concretely, 6 parses as one die with six sides, d6 parses as
`count = 1, sides = 6`, and 2d parses as `count = 1, sides = 2`. -/
theorem C2_one_survivor :
    (∀ (t : List Char) (s : Nat),
      (splitOn 'd' t).filterMap parseU32 = [s] →
      RollCmd.fromStr t = .ok (RollCmd.new 1 s)) ∧
    RollCmd.fromStr "6".data = .ok (RollCmd.new 1 6) ∧
    RollCmd.fromStr "d6".data = .ok (RollCmd.new 1 6) ∧
    RollCmd.fromStr "2d".data = .ok (RollCmd.new 1 2) := by
  refine ⟨fun t s h => ?_, rfl, rfl, rfl⟩
  simp only [RollCmd.fromStr, h]

/-- C2 witness: the general clause applied at the concrete token 6. -/
theorem C2_one_survivor_witness :
    RollCmd.fromStr "6".data = .ok (RollCmd.new 1 6) :=
  C2_one_survivor.1 "6".data 6 (by decide)

/-- C3: parsing fails, with the error message carrying the original token,
exactly when the number of substrings surviving integer parsing is neither
one nor two; any error value is that message; concretely abc and 1d2d3
fail. -/
theorem C3_error_iff :
    (∀ t : List Char,
      RollCmd.fromStr t = .error (invalidMsg t) ↔
        ¬(((splitOn 'd' t).filterMap parseU32).length = 1 ∨
          ((splitOn 'd' t).filterMap parseU32).length = 2)) ∧
    (∀ (t e : List Char), RollCmd.fromStr t = .error e → e = invalidMsg t) ∧
    RollCmd.fromStr "abc".data = .error (invalidMsg "abc".data) ∧
    RollCmd.fromStr "1d2d3".data = .error (invalidMsg "1d2d3".data) := by
  have hmain : ∀ t : List Char,
      (RollCmd.fromStr t = .error (invalidMsg t) ↔
        ¬(((splitOn 'd' t).filterMap parseU32).length = 1 ∨
          ((splitOn 'd' t).filterMap parseU32).length = 2)) ∧
      (∀ e : List Char, RollCmd.fromStr t = .error e → e = invalidMsg t) := by
    intro t
    simp only [RollCmd.fromStr]
    rcases hh : (splitOn 'd' t).filterMap parseU32 with _ | ⟨x, _ | ⟨y, _ | ⟨z, zs⟩⟩⟩
    · simp
    · simp
    · simp
    · simp
  exact ⟨fun t => (hmain t).1, fun t => (hmain t).2, rfl, rfl⟩

/-- C3 witness: the error-value clause applied at the concrete token
abc. -/
theorem C3_error_iff_witness :
    RollCmd.fromStr "abc".data = .error ("Invalid RollCmd: abc".data) ∧
      "Invalid RollCmd: abc".data = invalidMsg "abc".data :=
  ⟨rfl, C3_error_iff.2.1 "abc".data "Invalid RollCmd: abc".data rfl⟩

/-- C4: executing a command invokes the injected function exactly `count`
times, each call with argument `sides` (witnessed by an argument-recording
instrumentation that leaves the collected values unchanged), collecting the
returned values in call order into a result of length `count`; concretely,
2d6 executed with the identity function yields the values 6, 6. -/
theorem C4_execute_contract :
    (∀ (σ : Type) (f : σ → Nat → Nat × σ) (st : σ) (cmd : RollCmd),
      ((cmd.result f st).1.values).length = cmd.count ∧
      (cmd.result (instrument f) (st, [])).2.2 =
        List.replicate cmd.count cmd.sides ∧
      (cmd.result (instrument f) (st, [])).1 = (cmd.result f st).1) ∧
    RollCmd.fromStr "2d6".data = .ok (RollCmd.new 2 6) ∧
    ((RollCmd.new 2 6).resultP (fun m => m)).values = [6, 6] := by
  refine ⟨fun σ f st cmd => ⟨?_, ?_, ?_⟩, rfl, rfl⟩
  · simp [RollCmd.result, rollIter_length]
  · have h := (rollIter_instrument f cmd.sides cmd.count st []).2
    simpa [RollCmd.result] using h
  · have h := (rollIter_instrument f cmd.sides cmd.count st []).1
    simp [RollCmd.result, h]

/-- C5 counterexample: the claim as stated quantifies over arbitrary
injected functions, but the command is a pass-through aggregator: a
function returning 7 on a six-sided command stores a value outside one to
six. -/
theorem C5_range_counterexample :
    ¬(∀ v ∈ ((RollCmd.new 1 6).result
        (fun (u : Unit) _ => (7, u)) ()).1.values, 1 ≤ v ∧ v ≤ 6) := by
  decide

/-- C5 (amended): provided the injected function returns a value between 1
and `sides` whenever it is called with the command's `sides` (as the
collaborator's uniform-source wrapper does), every stored value of the
produced result lies between 1 and `sides` inclusive. -/
theorem C5_range_under_hypothesis (σ : Type) (f : σ → Nat → Nat × σ)
    (st : σ) (cmd : RollCmd)
    (hf : ∀ st' : σ, 1 ≤ (f st' cmd.sides).1 ∧ (f st' cmd.sides).1 ≤ cmd.sides) :
    ∀ v ∈ (cmd.result f st).1.values, 1 ≤ v ∧ v ≤ cmd.sides := by
  intro v hv
  have hm : v ∈ (rollIter f cmd.sides cmd.count st).1 := hv
  obtain ⟨st', he⟩ :=
    rollIter_mem f cmd.sides cmd.count st v hm
  exact he ▸ hf st'

/-- C5 witness: the amended theorem applied to a constant-one function on a
2d6 command, at the stored value 1. -/
theorem C5_range_under_hypothesis_witness :
    1 ≤ 1 ∧ 1 ≤ (RollCmd.new 2 6).sides :=
  C5_range_under_hypothesis Unit (fun u _ => (1, u)) () (RollCmd.new 2 6)
    (fun _ : Unit =>
      ⟨by show (1 : Nat) ≤ 1; decide, by show (1 : Nat) ≤ 6; decide⟩) 1
    (by decide)

/-- C6: the total of a result is the left fold of wrapping 32-bit addition
with initial accumulator 0 over the stored values in order, hence the sum
of the values modulo two to the 32; the empty result totals 0, and values
2, 3, 3 total 8. -/
theorem C6_total_fold :
    (∀ r : RollResult,
      r.total = r.values.foldl (fun a b => (a + b) % 2 ^ 32) 0 ∧
      r.total = r.values.sum % 2 ^ 32) ∧
    (RollResult.mk []).total = 0 ∧
    (RollResult.mk [2, 3, 3]).total = 8 := by
  refine ⟨fun r => ⟨rfl, ?_⟩, rfl, rfl⟩
  have h := foldl_wrap_add r.values 0
  simpa [RollResult.total] using h

/-- C7: the display string is the comma-and-space-joined decimal values,
then a single space, then the total in parentheses; values 2, 3, 3 render
with total 8, and the empty result renders with a preserved leading
space. -/
theorem C7_display_format :
    (∀ r : RollResult,
      r.toDisplayString =
        String.intercalate ", " (r.values.map Nat.repr) ++ " "
          ++ "(Total: " ++ Nat.repr r.total ++ ")") ∧
    (RollResult.mk [2, 3, 3]).toDisplayString = "2, 3, 3 (Total: 8)" ∧
    (RollResult.mk []).toDisplayString = " (Total: 0)" := by
  refine ⟨fun r => ?_, rfl, rfl⟩
  unfold RollResult.toDisplayString
  rw [show (" (Total: " : String) = " " ++ "(Total: " from rfl,
    ← string_append_assoc]

/-- C8: parsing never rejects zero `count` or zero `sides`: 0d6, 2d0 and 0
all parse; executing a zero-count command invokes the injected function
zero times (empty trace, untouched state, empty values), and a zero-sides
command calls the injected function with argument 0 on every call. -/
theorem C8_zero_values :
    RollCmd.fromStr "0d6".data = .ok (RollCmd.new 0 6) ∧
    RollCmd.fromStr "2d0".data = .ok (RollCmd.new 2 0) ∧
    RollCmd.fromStr "0".data = .ok (RollCmd.new 1 0) ∧
    (∀ (σ : Type) (f : σ → Nat → Nat × σ) (st : σ) (s : Nat),
      ((RollCmd.new 0 s).result f st).1.values = [] ∧
      ((RollCmd.new 0 s).result f st).2 = st ∧
      ((RollCmd.new 0 s).result (instrument f) (st, [])).2.2 = []) ∧
    (∀ (σ : Type) (f : σ → Nat → Nat × σ) (st : σ) (c : Nat),
      ((RollCmd.new c 0).result (instrument f) (st, [])).2.2 =
        List.replicate c 0) := by
  refine ⟨rfl, rfl, rfl, fun σ f st s => ⟨rfl, rfl, rfl⟩, fun σ f st c => ?_⟩
  have h := (rollIter_instrument f 0 c st []).2
  simpa [RollCmd.result, RollCmd.new] using h

/-- C9: a digit run whose value exceeds the largest `u32` fails the
piece-level parse and is discarded like a non-numeric piece; consequently
the token 4294967296d6 parses as `count = 1, sides = 6`. -/
theorem C9_overflow_discarded :
    (∀ l : List Char, l ≠ [] → l.all Char.isDigit = true →
      4294967295 < decimalVal l → parseU32 l = none) ∧
    parseU32 "4294967296".data = none ∧
    RollCmd.fromStr "4294967296d6".data = .ok (RollCmd.new 1 6) := by
  refine ⟨fun l hne hd hlt => ?_, rfl, rfl⟩
  have hsp : stripPlus l = l := by
    match l with
    | [] => rfl
    | x :: xs =>
      have hx : x.isDigit = true :=
        List.all_eq_true.mp hd x (List.mem_cons_self x xs)
      have hxp : x ≠ '+' := by
        intro he
        rw [he] at hx
        simp [Char.isDigit] at hx
      simp [stripPlus, hxp]
  simp only [parseU32, hsp]
  rw [if_neg (by simpa [List.isEmpty_iff] using hne), if_pos hd,
    if_neg (by omega)]

/-- C9 witness: the general clause applied at the digit run 4294967296. -/
theorem C9_overflow_discarded_witness :
    parseU32 "4294967296".data = none :=
  C9_overflow_discarded.1 "4294967296".data (by decide) (by decide)
    (by decide)

/-- C10: the split delimiter is the lowercase letter d only: a token with
no lowercase d is not split at all, and 2D6 therefore yields zero
surviving integers and fails with the parse error carrying the token. -/
theorem C10_case_sensitive :
    (∀ l : List Char, 'd' ∉ l → splitOn 'd' l = [l]) ∧
    splitOn 'd' "2D6".data = ["2D6".data] ∧
    (splitOn 'd' "2D6".data).filterMap parseU32 = [] ∧
    RollCmd.fromStr "2D6".data = .error (invalidMsg "2D6".data) :=
  ⟨splitOn_no_delim 'd', rfl, rfl, rfl⟩

/-- C10 witness: the no-delimiter clause applied at the concrete token
2D6. -/
theorem C10_case_sensitive_witness :
    splitOn 'd' "2D6".data = ["2D6".data] :=
  C10_case_sensitive.1 "2D6".data (by decide)

end Dice
